import Mathlib

/-!
Verification of `scripts/trello_to_md.py` (Trello JSON export → Markdown tree).

The script is shallowly embedded below: every Python function is translated
into an executable Lean definition over `String` / `List Char` / explicit
records. Python strings are modelled as Lean `String`s (acting on `.data`,
their character lists, where character-level reasoning is needed); Python's
`str.replace` with a single-character pattern is modelled as `replaceChar`;
Python's stable `sorted` / `list.sort` is modelled by the stable insertion
sort `stableSort`; JSON numbers used as Trello `pos` keys are modelled as
`Int` (only their ordering matters to the script); `card.get('due')` is
modelled as `Option String` with Python string truthiness made explicit.
The wall clock read by `datetime.now` is passed in as an explicit `now`
parameter, and file-system effects are modelled as the ordered list of
(path, content) writes the script performs.
-/

namespace Daedalus

/-! ## Character-level string passes (Python `str.replace`, single-char pattern) -/

/-- Model of Python `val.replace(a, rep)` when the pattern `a` is a single
character: each occurrence of `a` is replaced by the character list `rep`. -/
def replaceChar (a : Char) (rep : List Char) : List Char → List Char
  | [] => []
  | c :: cs => (if c = a then rep else [c]) ++ replaceChar a rep cs

/-- `escape_yaml_string` (source lines 46–53): empty/falsy input yields `""`;
otherwise escape backslashes, then double quotes, then replace newlines by a
space and drop carriage returns, and wrap in double quotes. -/
def escape_yaml_string (val : String) : String :=
  if val = "" then "\"\"" else
    "\"" ++ String.mk
      (replaceChar '\r' []
        (replaceChar '\n' [' ']
          (replaceChar '"' ['\\', '"']
            (replaceChar '\\' ['\\', '\\'] val.data)))) ++ "\""

/-- Transcription of the specified escaping as a single character-wise pass:
backslash ↦ `\\`, double quote ↦ `\"`, newline ↦ space, carriage return ↦
nothing, any other character kept. -/
def escapeCharSpec (c : Char) : List Char :=
  if c = '\\' then ['\\', '\\']
  else if c = '"' then ['\\', '"']
  else if c = '\n' then [' ']
  else if c = '\r' then []
  else [c]

/-- The specified escaping function: the net effect claimed for
`escape_yaml_string`, written as one pass over the characters. -/
def escapeYamlSpec (val : String) : String :=
  if val = "" then "\"\"" else
    "\"" ++ String.mk (val.data.flatMap escapeCharSpec) ++ "\""

/-! ## Filename sanitizer -/

/-- The characters removed by `sanitize_filename` (source line 22). -/
def invalidChar (c : Char) : Bool :=
  c = '<' || c = '>' || c = ':' || c = '"' || c = '/' ||
  c = '\\' || c = '|' || c = '?' || c = '*'

/-- Model of Python `str.strip(chars)`: drop characters satisfying `p` from
both ends. -/
def stripChars (p : Char → Bool) (l : List Char) : List Char :=
  ((l.dropWhile p).reverse.dropWhile p).reverse

/-- `sanitize_filename` (source lines 20–25): remove invalid characters,
replace spaces with underscores, strip leading/trailing spaces and hyphens
(`.strip(' -')`), lowercase.  Lowercasing is modelled per character by
`Char.toLower` (the ASCII case, which covers the script's intent). -/
def sanitize_filename (name : String) : String :=
  let s1 := name.data.filter (fun c => !invalidChar c)
  let s2 := s1.map (fun c => if c = ' ' then '_' else c)
  let s3 := stripChars (fun c => c = ' ' || c = '-') s2
  String.mk (s3.map Char.toLower)

/-- The sanitizer as the claim states it, with "whitespace" read as general
whitespace characters: invalid characters removed, spaces replaced by
underscores, leading/trailing hyphens and whitespace trimmed, lowercased. -/
def sanitizeClaim (name : String) : String :=
  let s1 := name.data.filter (fun c => !invalidChar c)
  let s2 := s1.map (fun c => if c = ' ' then '_' else c)
  let s3 := stripChars (fun c => c.isWhitespace || c = '-') s2
  String.mk (s3.map Char.toLower)

/-- The amended sanitizer description, written as one fused removal/replace
pass followed by the strip of spaces and hyphens and lowercasing. -/
def sanitizeAmended (name : String) : String :=
  String.mk
    ((stripChars (fun c => c = ' ' || c = '-')
      (name.data.filterMap (fun c =>
        if invalidChar c then none
        else if c = ' ' then some '_' else some c))).map Char.toLower)

/-- `sanitize_link_text` (source lines 27–30): replace square brackets by
parentheses and trim surrounding whitespace. -/
def sanitize_link_text (text : String) : String :=
  String.mk (stripChars Char.isWhitespace
    (text.data.map (fun c => if c = '[' then '(' else if c = ']' then ')' else c)))

/-! ## Data model -/

/-- A Trello card as the script reads it from the export JSON. -/
structure Card where
  id : String
  idShort : Nat
  idList : String
  idLabels : List String
  name : String
  desc : String
  due : Option String
  url : String
  dateClosed : Option String
  dateLastActivity : Option String
  dateCompleted : Option String
  pos : Int
deriving DecidableEq

/-- A Trello list (board column). -/
structure TrelloList where
  id : String
  name : String
  pos : Int
deriving DecidableEq

/-- A Trello label. -/
structure Label where
  id : String
  name : String
  color : String
deriving DecidableEq

/-- One checklist item. -/
structure CheckItem where
  name : String
  state : String
  pos : Int
deriving DecidableEq

/-- A checklist, owned by a card. -/
structure Checklist where
  idCard : String
  checkItems : List CheckItem
deriving DecidableEq

/-- The whole board export. -/
structure Board where
  lists : List TrelloList
  cards : List Card
  labels : List Label
  checklists : List Checklist
deriving DecidableEq

/-- Python `f"{x}"` for a value that may be `None`: `None` prints as `"None"`. -/
def optStr : Option String → String
  | none => "None"
  | some s => s

/-- Display text of a label (source line 125): `name` if truthy else `color`. -/
def labelText (l : Label) : String :=
  if l.name = "" then l.color else l.name

/-- Lookup in the `labels_map` dict comprehension (source line 125).  A Python
dict comprehension keeps the last entry for a duplicated id, hence the
reversed search. -/
def labelsMap (labels : List Label) (lid : String) : Option String :=
  (labels.reverse.find? (fun l => l.id == lid)).map labelText

/-! ## Stable sort (model of Python `sorted` / `list.sort`) -/

/-- Insert `x` into `l` in front of the first element `y` with `le x y`.
Combined with `stableSort`, this models Python's stable sort. -/
def insertSorted (le : α → α → Bool) (x : α) : List α → List α
  | [] => [x]
  | y :: ys => if le x y then x :: y :: ys else y :: insertSorted le x ys

/-- Stable insertion sort: the model of Python's `sorted(… , key=…)` and
`list.sort(key=…)` (both are stable sorts, and a stable sort is determined
extensionally by its comparison key and input order). -/
def stableSort (le : α → α → Bool) : List α → List α
  | [] => []
  | x :: xs => insertSorted le x (stableSort le xs)

/-- Comparison key used on cards: ascending `pos` (source lines 137, 117). -/
def leCard (a b : Card) : Bool := a.pos ≤ b.pos

/-- Comparison key used on lists: ascending `pos` (source line 117). -/
def leList (a b : TrelloList) : Bool := a.pos ≤ b.pos

/-- Comparison key used on checklist items: ascending `pos` (source line 76). -/
def leItem (a b : CheckItem) : Bool := a.pos ≤ b.pos

/-- `list_cards.sort(key=lambda k: k['pos'])` (source line 137). -/
def sortCards (cards : List Card) : List Card := stableSort leCard cards

/-- `sorted(data['lists'], key=lambda k: k['pos'])` (source line 117). -/
def sortLists (lists : List TrelloList) : List TrelloList := stableSort leList lists

/-- `sorted(cl['checkItems'], key=lambda x: x['pos'])` (source line 76). -/
def sortItems (items : List CheckItem) : List CheckItem := stableSort leItem items

/-! ## Renderer (`build_frontmatter`, source lines 55–89) -/

/-- The `due:` line (source lines 69–70): emitted when `card.get('due')` is
truthy, i.e. present and a non-empty string, with the raw value. -/
def dueLines (card : Card) : List String :=
  match card.due with
  | some d => if d = "" then [] else ["due: " ++ d]
  | none => []

/-- The `due:` line as claim C4 states it: emitted whenever `due` is present
and non-null, with the raw value. -/
def dueLinesClaim (card : Card) : List String :=
  match card.due with
  | some d => ["due: " ++ d]
  | none => []

/-- The resolvable labels of a card, in the card's order (source line 63). -/
def cardLabels (card : Card) (labels : List Label) : List String :=
  card.idLabels.filterMap (labelsMap labels)

/-- The `labels:` block (source lines 63–67). -/
def labelLines (card : Card) (labels : List Label) : List String :=
  let ls := cardLabels card labels
  if ls.isEmpty then []
  else "labels:" :: ls.map (fun l => "  - " ++ escape_yaml_string l)

/-- The checklist items rendered for a card, in rendering order (source lines
72–79): the card's checklists in input order, each checklist's items sorted
by `pos`. -/
def cardChecklistItems (card : Card) (checklists : List Checklist) : List CheckItem :=
  (checklists.filter (fun cl => cl.idCard == card.id)).flatMap
    (fun cl => sortItems cl.checkItems)

/-- One rendered checklist item line (source lines 77–79). -/
def renderItem (item : CheckItem) : String :=
  "  - \x7b desc: " ++ escape_yaml_string item.name ++ ", done: " ++
    (if item.state == "complete" then "true" else "false") ++ " \x7d"

/-- The `checklist:` block (source lines 72–79): the header is emitted when
the card owns at least one checklist (even an empty one). -/
def checklistLines (card : Card) (checklists : List Checklist) : List String :=
  if (checklists.filter (fun cl => cl.idCard == card.id)).isEmpty then []
  else "checklist:" :: (cardChecklistItems card checklists).map renderItem

/-- The `lines` list built by `build_frontmatter` (source lines 55–88).
`now` is the string produced by `datetime.now(timezone.utc).isoformat()`. -/
def buildFrontmatterLines (card : Card) (labels : List Label) (list_pos : Nat)
    (checklists : List Checklist) (now : String) : List String :=
  ["---"]
  ++ ["title: " ++ escape_yaml_string card.name]
  ++ ["id: " ++ toString card.idShort]
  ++ ["created: " ++ now]
  ++ ["list_order: " ++ toString list_pos]
  ++ labelLines card labels
  ++ dueLines card
  ++ checklistLines card checklists
  ++ ["trello_data:",
      "  id: " ++ card.id,
      "  url: " ++ card.url,
      "  date_closed: " ++ optStr card.dateClosed,
      "  date_last_activity: " ++ optStr card.dateLastActivity,
      "  date_completed: " ++ optStr card.dateCompleted]
  ++ ["---\n"]

/-- `build_frontmatter`'s return value: the lines joined with newlines
(source line 89). -/
def build_frontmatter (card : Card) (labels : List Label) (list_pos : Nat)
    (checklists : List Checklist) (now : String) : String :=
  String.intercalate "\n" (buildFrontmatterLines card labels list_pos checklists now)

/-- The card body (source line 143). -/
def cardBody (card : Card) : String :=
  "# " ++ card.name ++ "\n\n" ++ card.desc ++ "\n"

/-! ## Main pipeline (`main`, source lines 91–152) -/

/-- Whether a list is referenced by at least one card, i.e.
`lst['id'] in active_list_ids` (source lines 112–114, 118). -/
def isActive (b : Board) (l : TrelloList) : Bool :=
  b.cards.any (fun c => c.idList == l.id)

/-- `valid_lists` (source lines 116–119): the lists sorted ascending by
`pos`, filtered to those referenced by at least one card. -/
def validLists (b : Board) : List TrelloList :=
  (sortLists b.lists).filter (isActive b)

/-- `cards_by_list[list_id]` (source lines 121–123): the cards of a list, in
their original input order. -/
def cardsByList (b : Board) (lid : String) : List Card :=
  b.cards.filter (fun c => c.idList == lid)

/-- Python `str(n).zfill(2)`. -/
def zfill2 (n : Nat) : String :=
  let s := toString n
  if s.length < 2 then String.mk (List.replicate (2 - s.length) '0' ++ s.data) else s

/-- The directory name of the `folder_idx`-th active list (source line 131). -/
def folderName (idx : Nat) (listName : String) : String :=
  zfill2 idx ++ "___" ++ sanitize_filename listName

/-- The file name of a card (source line 140): the short id, unsanitized. -/
def cardFileName (card : Card) : String := toString card.idShort ++ ".md"

/-- The path a card is written to (source lines 140–141). -/
def cardFilePath (listDir : String) (card : Card) : String :=
  listDir ++ "/" ++ cardFileName card

/-- The directories created by the main loop (source lines 126–133), in
creation order: one per valid list. -/
def mainDirs (b : Board) (outputDir : String) : List String :=
  (validLists b).enum.map (fun q => outputDir ++ "/" ++ folderName q.1 q.2.name)

/-- The files written for one list (source lines 136–148), structured as
(path, frontmatter lines, body): cards sorted by `pos`, enumerated from 1. -/
def listFiles (labels : List Label) (checklists : List Checklist)
    (listDir : String) (cards : List Card) (now : String) :
    List (String × List String × String) :=
  (sortCards cards).enum.map (fun p =>
    (cardFilePath listDir p.2,
     buildFrontmatterLines p.2 labels (p.1 + 1) checklists now,
     cardBody p.2))

/-- All files written by a run, structured as (path, frontmatter lines,
body), in write order (source lines 126–150). -/
def mainWritesL (b : Board) (outputDir : String) (now : String) :
    List (String × List String × String) :=
  (validLists b).enum.flatMap (fun q =>
    listFiles b.labels b.checklists (outputDir ++ "/" ++ folderName q.1 q.2.name)
      (cardsByList b q.2.id) now)

/-- All files written by a run as (path, file content) pairs: the
frontmatter lines joined with newlines followed by the body
(source lines 146–148). -/
def mainWrites (b : Board) (outputDir : String) (now : String) :
    List (String × String) :=
  (mainWritesL b outputDir now).map
    (fun w => (w.1, String.intercalate "\n" w.2.1 ++ w.2.2))

/-- A whole run of `main` (source lines 91–152): the parsed input is `none`
when the input file is missing.  Returns the exit status, the messages
printed to stdout, and the file writes performed. -/
def mainRun (input : Option Board) (inputPath outputDir : String) (now : String) :
    Nat × List String × List (String × String) :=
  match input with
  | none =>
    (1,
     ["Reading Trello export JSON " ++ inputPath ++ "...",
      "Error: Could not find " ++ inputPath ++ "."],
     [])
  | some b =>
    (0,
     ["Reading Trello export JSON " ++ inputPath ++ "..."]
       ++ (validLists b).map (fun l => "  Processing List: " ++ l.name)
       ++ ["Converted Trello to Markdown at " ++ outputDir],
     mainWrites b outputDir now)

/-! ## Ranking helpers (for the `list_order` claims) -/

/-- Stable-sort comparison lifted to index-card pairs (the index is the
card's original position in its list's group). -/
def lePair (a b : Nat × Card) : Bool := a.2.pos ≤ b.2.pos

/-- Strict "written earlier" order on index-card pairs: smaller `pos`, or
equal `pos` and smaller original index. -/
def ltPair (a b : Nat × Card) : Bool :=
  a.2.pos < b.2.pos || (a.2.pos == b.2.pos && a.1 < b.1)

/-- The stable sort of a list's cards carrying their original indices; its
`k`-th element identifies which occurrence of a card is written `k`-th. -/
def sortEnumCards (cards : List Card) : List (Nat × Card) :=
  stableSort lePair cards.enum

/-- The 1-based rank of the occurrence `p` among `cards`: one more than the
number of occurrences with smaller `pos`, or equal `pos` and earlier
original position. -/
def rankOf (cards : List Card) (p : Nat × Card) : Nat :=
  1 + cards.enum.countP (fun q => ltPair q p)

/-! ## Verification helpers and concrete instances -/

/-- Scans a character list and checks that every double quote in it is the
second character of an adjacent `\"` pair (in particular the list does not
start with a bare quote). -/
def escOK : List Char → Bool
  | [] => true
  | [c] => c ≠ '"'
  | c :: d :: rest =>
    if c = '"' then false
    else if c = '\\' ∧ d = '"' then escOK rest
    else escOK (d :: rest)

/-- A concrete card used to instantiate the universally quantified theorems
below on explicit inputs. -/
def baseCard : Card :=
  { id := "C1", idShort := 42, idList := "L1", idLabels := [],
    name := "Buy milk", desc := "2%", due := none, url := "http://x",
    dateClosed := none, dateLastActivity := some "2020-01-01",
    dateCompleted := none, pos := 1 }

/-- A concrete one-list one-card board (the worked example of the spec). -/
def baseBoard : Board :=
  { lists := [{ id := "L1", name := "To Do", pos := 1 }],
    cards := [baseCard], labels := [], checklists := [] }

/-- A concrete board with two cards in one list sharing the same `idShort`. -/
def clashBoard : Board :=
  { lists := [{ id := "L1", name := "To Do", pos := 1 }],
    cards := [{ baseCard with id := "C1", pos := 5 },
              { baseCard with id := "C2", desc := "other", pos := 3 }],
    labels := [], checklists := [] }

/-- Two checklists of the same card whose items interleave in `pos`: the
first checklist's only item has a larger `pos` than the second's. -/
def crossChecklists : List Checklist :=
  [{ idCard := "C1", checkItems := [{ name := "x", state := "complete", pos := 2 }] },
   { idCard := "C1", checkItems := [{ name := "y", state := "incomplete", pos := 1 }] }]

/-! ## Lemmas about the stable sort -/

theorem insertSorted_perm (le : α → α → Bool) (x : α) (l : List α) :
    List.Perm (insertSorted le x l) (x :: l) := by
  induction l with
  | nil => exact List.Perm.refl _
  | cons y ys ih =>
    simp only [insertSorted]
    split
    · exact List.Perm.refl _
    · exact (List.Perm.cons y ih).trans (List.Perm.swap x y ys)

theorem stableSort_perm (le : α → α → Bool) (l : List α) :
    List.Perm (stableSort le l) l := by
  induction l with
  | nil => exact List.Perm.refl _
  | cons x xs ih => exact (insertSorted_perm le x _).trans (List.Perm.cons x ih)

theorem mem_stableSort (le : α → α → Bool) (l : List α) (a : α) :
    a ∈ stableSort le l ↔ a ∈ l :=
  (stableSort_perm le l).mem_iff

theorem insertSorted_pairwise (le : α → α → Bool)
    (htot : ∀ a b, le a b = true ∨ le b a = true)
    (htrans : ∀ a b c, le a b = true → le b c = true → le a c = true)
    (x : α) (l : List α) (hl : l.Pairwise (fun a b => le a b = true)) :
    (insertSorted le x l).Pairwise (fun a b => le a b = true) := by
  induction l with
  | nil => simp [insertSorted]
  | cons y ys ih =>
    rcases List.pairwise_cons.mp hl with ⟨hy, hys⟩
    simp only [insertSorted]
    split
    · rename_i hxy
      refine List.pairwise_cons.mpr ⟨?_, hl⟩
      intro z hz
      rcases List.mem_cons.mp hz with hz | hz
      · exact hz ▸ hxy
      · exact htrans x y z hxy (hy z hz)
    · rename_i hxy
      refine List.pairwise_cons.mpr ⟨?_, ih hys⟩
      intro z hz
      rcases List.mem_cons.mp ((insertSorted_perm le x ys).mem_iff.mp hz) with hz | hz
      · rw [hz]
        rcases htot x y with h | h
        · exact absurd h hxy
        · exact h
      · exact hy z hz

theorem stableSort_pairwise (le : α → α → Bool)
    (htot : ∀ a b, le a b = true ∨ le b a = true)
    (htrans : ∀ a b c, le a b = true → le b c = true → le a c = true)
    (l : List α) : (stableSort le l).Pairwise (fun a b => le a b = true) := by
  induction l with
  | nil => simp [stableSort]
  | cons x xs ih => exact insertSorted_pairwise le htot htrans x _ ih

theorem filter_insertSorted_of_pos (le : α → α → Bool) (p : α → Bool) (x : α)
    (l : List α) (hpx : p x = true)
    (hskip : ∀ y, p y = true → le x y = true) :
    (insertSorted le x l).filter p = x :: l.filter p := by
  induction l with
  | nil => simp [insertSorted, hpx]
  | cons y ys ih =>
    simp only [insertSorted]
    split
    · simp [List.filter_cons, hpx]
    · rename_i hxy
      have hpy : p y = false := by
        cases hy : p y
        · rfl
        · exact absurd (hskip y hy) hxy
      simp [List.filter_cons, hpy, ih]

theorem filter_insertSorted_of_neg (le : α → α → Bool) (p : α → Bool) (x : α)
    (l : List α) (hpx : p x = false) :
    (insertSorted le x l).filter p = l.filter p := by
  induction l with
  | nil => simp [insertSorted, hpx]
  | cons y ys ih =>
    simp only [insertSorted]
    split
    · simp [List.filter_cons, hpx]
    · simp [List.filter_cons, ih]

theorem filter_stableSort (le : α → α → Bool) (p : α → Bool)
    (hcomp : ∀ a b, p a = true → p b = true → le a b = true) (l : List α) :
    (stableSort le l).filter p = l.filter p := by
  induction l with
  | nil => rfl
  | cons x xs ih =>
    simp only [stableSort]
    cases hpx : p x
    · rw [filter_insertSorted_of_neg le p x _ hpx, ih, List.filter_cons, hpx]
      simp
    · rw [filter_insertSorted_of_pos le p x _ hpx (fun y hy => hcomp x y hpx hy),
        ih, List.filter_cons, hpx]
      simp

/-! ## Ranking lemmas -/

theorem lePair_iff (a b : Nat × Card) : lePair a b = true ↔ a.2.pos ≤ b.2.pos := by
  simp [lePair]

theorem ltPair_iff (a b : Nat × Card) :
    ltPair a b = true ↔ (a.2.pos < b.2.pos ∨ (a.2.pos = b.2.pos ∧ a.1 < b.1)) := by
  simp [ltPair]

theorem insertSorted_pairwise_ltPair (x : Nat × Card) (l : List (Nat × Card))
    (hidx : ∀ y ∈ l, x.1 < y.1)
    (hl : l.Pairwise (fun a b => ltPair a b = true)) :
    (insertSorted lePair x l).Pairwise (fun a b => ltPair a b = true) := by
  induction l with
  | nil => simp [insertSorted]
  | cons y ys ih =>
    rcases List.pairwise_cons.mp hl with ⟨hy, hys⟩
    simp only [insertSorted]
    split
    · rename_i hxy
      refine List.pairwise_cons.mpr ⟨?_, hl⟩
      intro z hz
      have hxy2 := (lePair_iff x y).mp hxy
      rcases List.mem_cons.mp hz with hz | hz
      · rw [hz]
        have := hidx y (List.mem_cons_self y ys)
        rw [ltPair_iff]
        omega
      · have hyz := (ltPair_iff y z).mp (hy z hz)
        have := hidx z (List.mem_cons_of_mem y hz)
        rw [ltPair_iff]
        omega
    · rename_i hxy
      have hyx : y.2.pos < x.2.pos := by
        have : ¬ x.2.pos ≤ y.2.pos := fun h => hxy ((lePair_iff x y).mpr h)
        omega
      refine List.pairwise_cons.mpr ⟨?_, ?_⟩
      · intro z hz
        rcases List.mem_cons.mp ((insertSorted_perm lePair x ys).mem_iff.mp hz) with hz | hz
        · rw [hz, ltPair_iff]
          omega
        · exact hy z hz
      · exact ih (fun z hz => hidx z (List.mem_cons_of_mem y hz)) hys

theorem stableSort_pairwise_ltPair (l : List (Nat × Card))
    (hl : l.Pairwise (fun a b => a.1 < b.1)) :
    (stableSort lePair l).Pairwise (fun a b => ltPair a b = true) := by
  induction l with
  | nil => simp [stableSort]
  | cons x xs ih =>
    rcases List.pairwise_cons.mp hl with ⟨hx, hxs⟩
    refine insertSorted_pairwise_ltPair x _ ?_ (ih hxs)
    intro y hy
    exact hx y ((mem_stableSort lePair xs y).mp hy)

theorem enum_pairwise_fst_lt (l : List α) :
    l.enum.Pairwise (fun a b => a.1 < b.1) := by
  have h1 : (List.range l.length).Pairwise (· < ·) := List.pairwise_lt_range _
  have h2 : List.map Prod.fst l.enum = List.range l.length := List.enum_map_fst l
  rw [← h2] at h1
  exact (List.pairwise_map.mp h1)

theorem sortEnumCards_pairwise (cards : List Card) :
    (sortEnumCards cards).Pairwise (fun a b => ltPair a b = true) :=
  stableSort_pairwise_ltPair _ (enum_pairwise_fst_lt cards)

theorem countP_eq_index_of_pairwise (s : List (Nat × Card))
    (hs : s.Pairwise (fun a b => ltPair a b = true)) (k : Nat) (h : k < s.length) :
    s.countP (fun q => ltPair q s[k]) = k := by
  induction s generalizing k with
  | nil => simp at h
  | cons a t ih =>
    rcases List.pairwise_cons.mp hs with ⟨ha, ht⟩
    cases k with
    | zero =>
      simp only [List.getElem_cons_zero, List.countP_cons]
      have haa : ltPair a a = false := by
        cases hv : ltPair a a
        · rfl
        · have := (ltPair_iff a a).mp hv
          omega
      have hzero : t.countP (fun q => ltPair q a) = 0 := by
        rw [List.countP_eq_zero]
        intro z hz hza
        have h1 := (ltPair_iff a z).mp (ha z hz)
        have h2 := (ltPair_iff z a).mp hza
        omega
      simp [haa, hzero]
    | succ k =>
      have hk : k < t.length := by simpa using h
      simp only [List.getElem_cons_succ, List.countP_cons]
      have hat : ltPair a t[k] = true := ha t[k] (List.getElem_mem hk)
      rw [ih ht k hk, hat]
      simp

theorem rankOf_sortEnumCards (cards : List Card) (k : Nat)
    (h : k < (sortEnumCards cards).length) :
    rankOf cards (sortEnumCards cards)[k] = k + 1 := by
  unfold rankOf
  have hperm : List.Perm cards.enum (sortEnumCards cards) :=
    (stableSort_perm lePair cards.enum).symm
  rw [hperm.countP_eq]
  rw [countP_eq_index_of_pairwise _ (sortEnumCards_pairwise cards) k h]
  omega

theorem map_snd_insertSorted (x : Nat × Card) (l : List (Nat × Card)) :
    (insertSorted lePair x l).map Prod.snd = insertSorted leCard x.2 (l.map Prod.snd) := by
  induction l with
  | nil => rfl
  | cons y ys ih =>
    have hle : lePair x y = leCard x.2 y.2 := rfl
    simp only [insertSorted, List.map_cons, hle]
    split
    · rfl
    · simp [ih]

theorem map_snd_stableSort (l : List (Nat × Card)) :
    (stableSort lePair l).map Prod.snd = stableSort leCard (l.map Prod.snd) := by
  induction l with
  | nil => rfl
  | cons x xs ih =>
    simp only [stableSort, map_snd_insertSorted, ih]

theorem sortCards_eq_map_snd (cards : List Card) :
    sortCards cards = (sortEnumCards cards).map Prod.snd := by
  unfold sortCards sortEnumCards
  rw [map_snd_stableSort, List.enum_map_snd]

theorem length_sortEnumCards (cards : List Card) :
    (sortEnumCards cards).length = cards.length := by
  unfold sortEnumCards
  rw [(stableSort_perm lePair cards.enum).length_eq, List.enum_length]

theorem length_sortCards (cards : List Card) :
    (sortCards cards).length = cards.length :=
  (stableSort_perm leCard cards).length_eq

/-! ## Lemmas about the YAML escaping passes -/

theorem replaceChar_eq_flatMap (a : Char) (rep : List Char) (l : List Char) :
    replaceChar a rep l = l.flatMap (fun c => if c = a then rep else [c]) := by
  induction l with
  | nil => rfl
  | cons c cs ih => simp [replaceChar, ih]

theorem replaceChar_append (a : Char) (rep : List Char) (u v : List Char) :
    replaceChar a rep (u ++ v) = replaceChar a rep u ++ replaceChar a rep v := by
  induction u with
  | nil => rfl
  | cons c cs ih => simp [replaceChar, ih]

theorem mem_replaceChar (a : Char) (rep : List Char) (l : List Char) (c : Char)
    (hc : c ∈ replaceChar a rep l) : c ∈ rep ∨ (c ∈ l ∧ c ≠ a) := by
  induction l with
  | nil => simp [replaceChar] at hc
  | cons d ds ih =>
    simp only [replaceChar, List.mem_append] at hc
    rcases hc with hc | hc
    · split at hc
      · exact Or.inl hc
      · rename_i hda
        rcases List.mem_singleton.mp hc with rfl
        exact Or.inr ⟨List.mem_cons_self _ _, hda⟩
    · rcases ih hc with h | ⟨h1, h2⟩
      · exact Or.inl h
      · exact Or.inr ⟨List.mem_cons_of_mem d h1, h2⟩

theorem escape_passes_eq (l : List Char) :
    replaceChar '\r' [] (replaceChar '\n' [' ']
      (replaceChar '"' ['\\', '"'] (replaceChar '\\' ['\\', '\\'] l)))
    = l.flatMap escapeCharSpec := by
  simp only [replaceChar_eq_flatMap]
  rw [List.flatMap_assoc, List.flatMap_assoc, List.flatMap_assoc]
  have h : ∀ f g : Char → List Char, (∀ c, f c = g c) → l.flatMap f = l.flatMap g := by
    intro f g hfg
    rw [funext hfg]
  apply h
  intro c
  by_cases h1 : c = '\\'
  · subst h1; rfl
  by_cases h2 : c = '"'
  · subst h2; rfl
  by_cases h3 : c = '\n'
  · subst h3; rfl
  by_cases h4 : c = '\r'
  · subst h4; rfl
  simp [escapeCharSpec, h1, h2, h3, h4]

theorem escOK_quote_head (t : List Char) : escOK ('"' :: t) = false := by
  cases t <;> simp [escOK]

theorem escOK_cons (c : Char) (hc : c ≠ '"') (l : List Char)
    (hl : escOK l = true) : escOK (c :: l) = true := by
  cases l with
  | nil => simpa [escOK] using hc
  | cons d t =>
    by_cases hbd : c = '\\' ∧ d = '"'
    · rcases hbd with ⟨hc2, hd⟩
      subst hd
      rw [escOK_quote_head] at hl
      simp at hl
    · simpa [escOK, hc, hbd] using hl

theorem escOK_pipeline (l : List Char) :
    escOK (replaceChar '\r' [] (replaceChar '\n' [' ']
      (replaceChar '"' ['\\', '"'] l))) = true := by
  induction l with
  | nil => rfl
  | cons c cs ih =>
    by_cases h1 : c = '"'
    · subst h1
      rw [show replaceChar '"' ['\\', '"'] ('"' :: cs)
          = ['\\', '"'] ++ replaceChar '"' ['\\', '"'] cs from rfl,
        replaceChar_append, replaceChar_append,
        show replaceChar '\r' [] (replaceChar '\n' [' '] ['\\', '"'])
          = ['\\', '"'] from rfl]
      show escOK ('\\' :: '"' :: _) = true
      simpa [escOK] using ih
    · rw [show replaceChar '"' ['\\', '"'] (c :: cs)
          = (if c = '"' then ['\\', '"'] else [c]) ++ replaceChar '"' ['\\', '"'] cs from rfl,
        if_neg h1, replaceChar_append, replaceChar_append]
      by_cases h2 : c = '\n'
      · subst h2
        rw [show replaceChar '\r' [] (replaceChar '\n' [' '] ['\n']) = [' '] from rfl]
        exact escOK_cons ' ' (by decide) _ ih
      by_cases h3 : c = '\r'
      · subst h3
        rw [show replaceChar '\r' [] (replaceChar '\n' [' '] ['\r']) = [] from rfl]
        simpa using ih
      · have hblock : replaceChar '\r' [] (replaceChar '\n' [' '] [c]) = [c] := by
          simp [replaceChar, h2, h3]
        rw [hblock]
        exact escOK_cons c h1 _ ih

theorem escOK_quote_pred : ∀ (l : List Char), escOK l = true →
    ∀ j, (hj : j < l.length) → l[j] = '"' → 0 < j ∧ l[j - 1] = '\\'
  | [], _, j, hj => by simp at hj
  | [c], h, j, hj => by
    intro hq
    have hj0 : j = 0 := by simpa using hj
    subst hj0
    simp only [List.getElem_cons_zero] at hq
    subst hq
    simp [escOK] at h
  | c :: d :: rest, h, j, hj => by
    intro hq
    simp only [escOK] at h
    split_ifs at h with hc hbd
    · rcases hbd with ⟨hc2, hd⟩
      subst hc2; subst hd
      match j, hj with
      | 0, _ => simp at hq
      | 1, _ => exact ⟨by omega, by simp⟩
      | (m + 2), hj =>
        have hm : m < rest.length := by simpa using hj
        simp only [List.getElem_cons_succ] at hq
        have rec1 := escOK_quote_pred rest h m hm hq
        rcases rec1 with ⟨hm0, hmb⟩
        refine ⟨by omega, ?_⟩
        match m, hm0 with
        | (n + 1), _ =>
          simpa using hmb
    · match j, hj with
      | 0, _ =>
        simp only [List.getElem_cons_zero] at hq
        exact absurd hq hc
      | (k + 1), hj =>
        have hk : k < (d :: rest).length := by simpa using hj
        simp only [List.getElem_cons_succ] at hq
        have rec1 := escOK_quote_pred (d :: rest) h k hk hq
        rcases rec1 with ⟨hk0, hkb⟩
        refine ⟨by omega, ?_⟩
        match k, hk0 with
        | (n + 1), _ =>
          simpa using hkb

theorem wrapped_quote_pred (mid : List Char) (hOK : escOK mid = true) (i : Nat)
    (h : i + 2 < ('"' :: (mid ++ ['"'])).length)
    (hq : ('"' :: (mid ++ ['"']))[i + 1] = '"') :
    ('"' :: (mid ++ ['"']))[i] = '\\' := by
  have hlen : ('"' :: (mid ++ ['"'])).length = mid.length + 2 := by simp
  have hi : i < mid.length := by omega
  rw [List.getElem_cons_succ, List.getElem_append_left hi] at hq
  rcases escOK_quote_pred mid hOK i hi hq with ⟨hi0, hib⟩
  match i, hi0 with
  | (m + 1), _ =>
    have hm : m < mid.length := by omega
    rw [List.getElem_cons_succ, List.getElem_append_left hm]
    simpa using hib

theorem data_escape_yaml (val : String) (hv : ¬ val = "") :
    (escape_yaml_string val).data
      = '"' :: ((replaceChar '\r' [] (replaceChar '\n' [' ']
          (replaceChar '"' ['\\', '"']
            (replaceChar '\\' ['\\', '\\'] val.data)))) ++ ['"']) := by
  rw [escape_yaml_string, if_neg hv]
  simp [String.data_append]

/-! ## Lemmas about the filename sanitizer -/

theorem filter_map_eq_filterMap (l : List Char) :
    (l.filter (fun c => !invalidChar c)).map (fun c => if c = ' ' then '_' else c)
      = l.filterMap (fun c =>
          if invalidChar c then none
          else if c = ' ' then some '_' else some c) := by
  induction l with
  | nil => rfl
  | cons c cs ih =>
    cases hc : invalidChar c
    · by_cases hsp : c = ' '
      · subst hsp
        simp [List.filter_cons, List.filterMap_cons, hc, ih]
      · simp [List.filter_cons, List.filterMap_cons, hc, hsp, ih]
    · simp [List.filter_cons, List.filterMap_cons, hc, ih]

/-! ## Claim C5: the YAML string escaping function -/

/-- C5 (confirmed): `escape_yaml_string` maps empty input to `""` and
otherwise performs exactly the specified net transformation — backslashes
escaped first, then double quotes, then newlines become one space each and
carriage returns are removed, and the result is wrapped in double quotes
(`escapeYamlSpec` is that transformation written as one character pass). -/
theorem claim5_escape_yaml (val : String) :
    escape_yaml_string val = escapeYamlSpec val := by
  rw [escape_yaml_string, escapeYamlSpec]
  by_cases h : val = ""
  · simp [h]
  · rw [if_neg h, if_neg h, escape_passes_eq]

/-! ## Claim C9: the escaped string is a safely quoted single line -/

/-- C9 (confirmed): for every input string the output of
`escape_yaml_string` contains no newline and no carriage return, starts and
ends with a double quote, and every interior double quote is immediately
preceded by a backslash. -/
theorem claim9_escape_single_line (val : String) :
    (∀ c ∈ (escape_yaml_string val).data, c ≠ '\n' ∧ c ≠ '\r') ∧
    (escape_yaml_string val).data.head? = some '"' ∧
    (escape_yaml_string val).data.getLast? = some '"' ∧
    (∀ i, (h : i + 2 < (escape_yaml_string val).data.length) →
      (escape_yaml_string val).data[i + 1] = '"' →
      (escape_yaml_string val).data[i] = '\\') := by
  by_cases hv : val = ""
  · subst hv
    refine ⟨by decide, rfl, rfl, ?_⟩
    intro i h
    have : (escape_yaml_string "").data.length = 2 := rfl
    omega
  · rw [data_escape_yaml val hv]
    refine ⟨?_, rfl, ?_, ?_⟩
    · intro c hc
      rcases List.mem_cons.mp hc with hc | hc
      · subst hc; exact ⟨by decide, by decide⟩
      rcases List.mem_append.mp hc with hc | hc
      · constructor
        · rcases mem_replaceChar _ _ _ _ hc with h | ⟨h1, _⟩
          · simp at h
          · rcases mem_replaceChar _ _ _ _ h1 with h | ⟨_, h2⟩
            · rcases List.mem_singleton.mp h with rfl
              decide
            · exact h2
        · rcases mem_replaceChar _ _ _ _ hc with h | ⟨_, h2⟩
          · simp at h
          · exact h2
      · rcases List.mem_singleton.mp hc with rfl
        exact ⟨by decide, by decide⟩
    · rw [show ('"' :: ((replaceChar '\r' [] (replaceChar '\n' [' ']
          (replaceChar '"' ['\\', '"']
            (replaceChar '\\' ['\\', '\\'] val.data)))) ++ ['"']))
          = ('"' :: (replaceChar '\r' [] (replaceChar '\n' [' ']
          (replaceChar '"' ['\\', '"']
            (replaceChar '\\' ['\\', '\\'] val.data))))) ++ ['"']
          by rw [List.cons_append]]
      rw [List.getLast?_concat]
    · intro i h hq
      exact wrapped_quote_pred _ (escOK_pipeline _) i h hq

/-- C9 witness: in the escape of `x"y` (characters `" x \ " y "`), the
interior double quote at index 3 is preceded by a backslash at index 2. -/
theorem claim9_escape_single_line_witness :
    (escape_yaml_string "x\"y").data.get ⟨2, by decide⟩ = '\\' :=
  (claim9_escape_single_line "x\"y").2.2.2 2 (by decide) (by decide)

/-! ## Claim C6: the filename sanitizer -/

/-- C6 counterexample: the sanitizer does not trim general whitespace — a
trailing tab survives `strip(' -')`, while the claim's reading of
"trims … whitespace" would remove it. -/
theorem claim6_counterexample :
    sanitize_filename "a\t" = "a\t" ∧ sanitizeClaim "a\t" = "a" ∧
    sanitize_filename "a\t" ≠ sanitizeClaim "a\t" := by
  refine ⟨by decide, by decide, by decide⟩

/-- C6 as amended: the sanitizer removes the characters `< > : " / \ | ? *`,
replaces spaces with underscores, trims leading and trailing hyphens and
space characters (not other whitespace), and lowercases; and it is applied
only to list names — a card's file name is its raw `idShort` plus `.md`,
unsanitized. -/
theorem claim6_sanitize_amended (name : String) (card : Card) :
    sanitize_filename name = sanitizeAmended name ∧
    cardFileName card = toString card.idShort ++ ".md" := by
  constructor
  · show String.mk ((stripChars (fun c => c = ' ' || c = '-')
      ((name.data.filter (fun c => !invalidChar c)).map
        (fun c => if c = ' ' then '_' else c))).map Char.toLower) = _
    rw [filter_map_eq_filterMap]
    rfl
  · rfl

/-! ## Claim C4: the `due:` line -/

/-- C4 counterexample: a card whose `due` is present and non-null but the
empty string gets no `due:` line (Python truthiness), while the claim
requires one. -/
theorem claim4_counterexample :
    ({ baseCard with due := some "" } : Card).due.isSome = true ∧
    dueLines { baseCard with due := some "" } = [] ∧
    dueLinesClaim { baseCard with due := some "" } = ["due: "] ∧
    dueLines { baseCard with due := some "" } ≠
      dueLinesClaim { baseCard with due := some "" } := by
  refine ⟨by decide, by decide, by decide, by decide⟩

/-- C4 as amended: the frontmatter contains a `due:` line iff the card's
`due` field is present, non-null and non-empty; when emitted the value is
the raw due string, unescaped. -/
theorem claim4_due_amended (card : Card) :
    (∀ d, card.due = some d → d ≠ "" → dueLines card = ["due: " ++ d]) ∧
    (card.due = none → dueLines card = []) ∧
    (card.due = some "" → dueLines card = []) := by
  refine ⟨?_, ?_, ?_⟩
  · intro d hd hne
    simp [dueLines, hd, hne]
  · intro hd
    simp [dueLines, hd]
  · intro hd
    simp [dueLines, hd]

/-- C4 witness: the amended theorem applied to a card with
`due = "2024-01-01"`. -/
theorem claim4_due_witness :
    dueLines { baseCard with due := some "2024-01-01" } = ["due: 2024-01-01"] :=
  (claim4_due_amended _).1 "2024-01-01" rfl (by decide)

/-! ## Claim C8: exit status -/

/-- C8 (confirmed): a missing input file exits with status 1 after a message
naming the missing path; a parsed input exits with status 0; the exit code
is never anything else. -/
theorem claim8_exit_codes (inputPath outputDir now : String) :
    (mainRun none inputPath outputDir now).1 = 1 ∧
    ("Error: Could not find " ++ inputPath ++ ".")
      ∈ (mainRun none inputPath outputDir now).2.1 ∧
    (∀ b : Board, (mainRun (some b) inputPath outputDir now).1 = 0) ∧
    (∀ input : Option Board,
      (mainRun input inputPath outputDir now).1 = if input.isSome then 0 else 1) := by
  refine ⟨rfl, ?_, fun b => rfl, ?_⟩
  · simp [mainRun]
  · intro input
    cases input <;> rfl

/-! ## Claim C2: idempotence across runs -/

/-- C2 counterexample: the same board converted at two different render
times produces different bytes (the `created:` line records the clock), so
two runs of the tool are not byte-identical. -/
theorem claim2_counterexample :
    mainWrites baseBoard "out" "2024-01-01T00:00:00+00:00" ≠
    mainWrites baseBoard "out" "2024-01-02T00:00:00+00:00" := by
  decide

theorem eraseIdx3_frontmatter (card : Card) (labels : List Label)
    (list_pos : Nat) (checklists : List Checklist) (t1 t2 : String) :
    (buildFrontmatterLines card labels list_pos checklists t1).eraseIdx 3
      = (buildFrontmatterLines card labels list_pos checklists t2).eraseIdx 3 := by
  simp [buildFrontmatterLines, List.eraseIdx]

/-- C2 as amended: two runs over the same input and output target write the
same paths, and the outputs are byte-identical except for the `created:`
frontmatter line (the fourth line of each file's frontmatter), which
records the run's render timestamp. -/
theorem claim2_idempotent_modulo_created (b : Board) (outputDir t1 t2 : String) :
    (mainWritesL b outputDir t1).map (fun w => (w.1, w.2.1.eraseIdx 3, w.2.2))
      = (mainWritesL b outputDir t2).map (fun w => (w.1, w.2.1.eraseIdx 3, w.2.2)) ∧
    (mainWrites b outputDir t1).map Prod.fst
      = (mainWrites b outputDir t2).map Prod.fst := by
  have h1 : (mainWritesL b outputDir t1).map (fun w => (w.1, w.2.1.eraseIdx 3, w.2.2))
      = (mainWritesL b outputDir t2).map (fun w => (w.1, w.2.1.eraseIdx 3, w.2.2)) := by
    unfold mainWritesL listFiles
    rw [List.map_flatMap, List.map_flatMap]
    congr 1
    funext q
    rw [List.map_map, List.map_map]
    congr 1
  refine ⟨h1, ?_⟩
  have h2 := congrArg (List.map Prod.fst) h1
  unfold mainWrites
  rw [List.map_map, List.map_map] at h2 ⊢
  simpa [Function.comp] using h2

/-! ## Claim C3: checklist item ordering -/

/-- C3 counterexample: a card with two checklists whose items interleave in
`pos` renders the items in per-checklist order `pos = 2` then `pos = 1`,
not ascending by `pos` across checklists as the claim states. -/
theorem claim3_counterexample :
    (cardChecklistItems baseCard crossChecklists).map (fun i => i.pos) = [2, 1] ∧
    ¬ (cardChecklistItems baseCard crossChecklists).Pairwise
        (fun a b => a.pos ≤ b.pos) := by
  refine ⟨by decide, by decide⟩

/-- C3 as amended: the rendered checklist block contains, for each checklist
owned by the card in input order, exactly that checklist's items sorted
ascending by `pos`; items are not re-sorted globally across checklists. -/
theorem claim3_checklist_amended (card : Card) (cls : List Checklist) :
    cardChecklistItems card cls
      = ((cls.filter (fun cl => cl.idCard == card.id)).map
          (fun cl => sortItems cl.checkItems)).flatten ∧
    (∀ cl ∈ cls.filter (fun cl => cl.idCard == card.id),
      (sortItems cl.checkItems).Pairwise (fun a b => a.pos ≤ b.pos) ∧
      List.Perm (sortItems cl.checkItems) cl.checkItems) ∧
    ((cls.filter (fun cl => cl.idCard == card.id)) ≠ [] →
      checklistLines card cls
        = "checklist:" :: (cardChecklistItems card cls).map renderItem) := by
  refine ⟨?_, ?_, ?_⟩
  · rw [cardChecklistItems, List.flatMap_def]
  · intro cl hcl
    constructor
    · have htot : ∀ a b : CheckItem, leItem a b = true ∨ leItem b a = true := by
        intro a b
        simp [leItem]
        omega
      have htrans : ∀ a b c : CheckItem,
          leItem a b = true → leItem b c = true → leItem a c = true := by
        intro a b c hab hbc
        simp [leItem] at hab hbc ⊢
        omega
      have hp := stableSort_pairwise leItem htot htrans cl.checkItems
      exact hp.imp (fun h => by simpa [leItem] using h)
    · exact stableSort_perm leItem cl.checkItems
  · intro hne
    rw [checklistLines, if_neg]
    simp [List.isEmpty_iff, hne]

/-- C3 witness: the amended theorem applied to the concrete two-checklist
card, whose block is grouped by checklist. -/
theorem claim3_checklist_witness :
    checklistLines baseCard crossChecklists
      = "checklist:" :: (cardChecklistItems baseCard crossChecklists).map renderItem :=
  (claim3_checklist_amended baseCard crossChecklists).2.2 (by decide)

/-! ## Claim C1: active lists -/

/-- C1 (confirmed): exactly the lists referenced by at least one card are
emitted (each as one output directory), in ascending `pos` order with ties
keeping the original sequence order (for every `pos` value, the emitted
lists with that `pos` appear exactly as in the input), and a list with zero
referencing cards is never emitted. -/
theorem claim1_active_lists (b : Board) :
    (∀ l : TrelloList,
      l ∈ validLists b ↔ (l ∈ b.lists ∧ ∃ c ∈ b.cards, c.idList = l.id)) ∧
    (validLists b).Pairwise (fun a c => a.pos ≤ c.pos) ∧
    (∀ p : Int, (validLists b).filter (fun l => l.pos == p)
        = b.lists.filter (fun l => l.pos == p && isActive b l)) ∧
    (∀ outputDir, mainDirs b outputDir
        = (validLists b).enum.map
            (fun q => outputDir ++ "/" ++ folderName q.1 q.2.name)) := by
  have htot : ∀ a c : TrelloList, leList a c = true ∨ leList c a = true := by
    intro a c
    simp [leList]
    omega
  have htrans : ∀ a c d : TrelloList,
      leList a c = true → leList c d = true → leList a d = true := by
    intro a c d h1 h2
    simp [leList] at h1 h2 ⊢
    omega
  refine ⟨?_, ?_, ?_, fun _ => rfl⟩
  · intro l
    rw [validLists, List.mem_filter, sortLists, mem_stableSort]
    simp [isActive, List.any_eq_true]
  · have hp := stableSort_pairwise leList htot htrans b.lists
    exact (hp.filter (isActive b)).imp (fun h => by simpa [leList] using h)
  · intro p
    rw [validLists, sortLists, List.filter_comm,
      filter_stableSort leList (fun l => l.pos == p)
        (by intro a c ha hc; simp [leList] at ha hc ⊢; omega),
      List.filter_filter]
    congr 1
    funext l
    rw [Bool.and_comm]

/-! ## Claim C7: the rendered `list_order` field -/

/-- C7 (confirmed): in the files emitted for a list, the frontmatter's
`list_order:` line of the `k`-th written card (line index 4) carries exactly
the 1-based rank of that card occurrence's `pos` among the cards of its own
list, ties broken by original input order (`rankOf` counts the occurrences
with smaller `pos`, or equal `pos` and earlier original position). -/
theorem claim7_list_order (b : Board) (lid : String) (labels : List Label)
    (cls : List Checklist) (dir now : String) (k : Nat)
    (h2 : k < (listFiles labels cls dir (cardsByList b lid) now).length)
    (h3 : k < (sortEnumCards (cardsByList b lid)).length) :
    ((listFiles labels cls dir (cardsByList b lid) now)[k]).2.1[4]?
      = some ("list_order: " ++
          toString (rankOf (cardsByList b lid) (sortEnumCards (cardsByList b lid))[k])) := by
  rw [rankOf_sortEnumCards (cardsByList b lid) k h3]
  have hk : k < (sortCards (cardsByList b lid)).enum.length := by
    simpa [listFiles] using h2
  simp only [listFiles] at h2 ⊢
  rw [List.getElem_map, List.getElem_enum]
  simp [buildFrontmatterLines]

/-- C7 witness: the baseBoard's only card is written first with
`list_order: 1`, its rank. -/
theorem claim7_list_order_witness :
    ((listFiles [] [] "out" (cardsByList baseBoard "L1") "T").get ⟨0, by decide⟩).2.1[4]?
      = some "list_order: 1" :=
  (claim7_list_order baseBoard "L1" [] [] "out" "T" 0 (by decide) (by decide)).trans
    (by decide)

/-! ## Claim C10: cards with equal `idShort` in one list -/

theorem two_le_countP (p : α → Bool) :
    ∀ (l : List α) (i j : Nat), (hi : i < l.length) → (hj : j < l.length) →
      i < j → p l[i] = true → p l[j] = true → 2 ≤ l.countP p
  | [], i, j, hi, _ => by simp at hi
  | a :: t, 0, j, hi, hj => by
    intro hij hpi hpj
    match j, hj with
    | (n + 1), hj =>
      have hn : n < t.length := by simpa using hj
      simp only [List.getElem_cons_zero] at hpi
      simp only [List.getElem_cons_succ] at hpj
      have hpos : 0 < t.countP p :=
        List.countP_pos_iff.mpr ⟨t[n], List.getElem_mem hn, hpj⟩
      rw [List.countP_cons, hpi]
      show 2 ≤ t.countP p + 1
      omega
  | a :: t, (m + 1), j, hi, hj => by
    intro hij hpi hpj
    match j, hj with
    | (n + 1), hj =>
      have hm : m < t.length := by simpa using hi
      have hn : n < t.length := by simpa using hj
      simp only [List.getElem_cons_succ] at hpi hpj
      have h2 := two_le_countP p t m n hm hn (by omega) hpi hpj
      rw [List.countP_cons]
      omega

theorem length_listFiles (labels : List Label) (cls : List Checklist)
    (dir : String) (cards : List Card) (now : String) :
    (listFiles labels cls dir cards now).length = cards.length := by
  simp [listFiles, length_sortCards]

theorem paths_listFiles (labels : List Label) (cls : List Checklist)
    (dir : String) (cards : List Card) (now : String) :
    (listFiles labels cls dir cards now).map Prod.fst
      = (sortCards cards).map (cardFilePath dir) := by
  simp only [listFiles, List.map_map]
  rw [show ((fun w => w.1) ∘ fun p : Nat × Card =>
      (cardFilePath dir p.2, buildFrontmatterLines p.2 labels (p.1 + 1) cls now,
        cardBody p.2)) = (cardFilePath dir) ∘ Prod.snd from rfl]
  rw [← List.map_map, List.enum_map_snd]

/-- C10 (confirmed): two cards of the same list with equal `idShort` are
rendered to the same file path; among the two, the occurrence written later
is the one with the greater `pos`, or, on a `pos` tie, the one later in the
original input (`sortEnumCards` index = write order); and the list's
directory then holds strictly fewer distinct file paths than the list has
cards. -/
theorem claim10_idshort_clash (b : Board) (lid : String) (cards : List Card)
    (hgroup : cards = cardsByList b lid)
    (labels : List Label) (cls : List Checklist) (dir now : String)
    (i j : Nat) (hi : i < cards.length) (hj : j < cards.length) (hij : i < j)
    (hshort : cards[i].idShort = cards[j].idShort) :
    cardFilePath dir cards[i] = cardFilePath dir cards[j] ∧
    (∃ k1 k2, ∃ (hk1 : k1 < (sortEnumCards cards).length)
        (hk2 : k2 < (sortEnumCards cards).length),
      (sortEnumCards cards)[k1] = (i, cards[i]) ∧
      (sortEnumCards cards)[k2] = (j, cards[j]) ∧
      (if cards[i].pos ≤ cards[j].pos then k1 < k2 else k2 < k1)) ∧
    ((listFiles labels cls dir cards now).map Prod.fst).dedup.length
      < cards.length := by
  have hpath : cardFilePath dir cards[i] = cardFilePath dir cards[j] := by
    simp [cardFilePath, cardFileName, hshort]
  refine ⟨hpath, ?_, ?_⟩
  · have hmem1 : (i, cards[i]) ∈ sortEnumCards cards := by
      rw [sortEnumCards, mem_stableSort]
      have hi2 : i < cards.enum.length := by simpa using hi
      have h1 : cards.enum[i] = (i, cards[i]) := List.getElem_enum cards i hi2
      rw [← h1]
      exact List.getElem_mem hi2
    have hmem2 : (j, cards[j]) ∈ sortEnumCards cards := by
      rw [sortEnumCards, mem_stableSort]
      have hj2 : j < cards.enum.length := by simpa using hj
      have h1 : cards.enum[j] = (j, cards[j]) := List.getElem_enum cards j hj2
      rw [← h1]
      exact List.getElem_mem hj2
    rcases List.mem_iff_getElem.mp hmem1 with ⟨k1, hk1, heq1⟩
    rcases List.mem_iff_getElem.mp hmem2 with ⟨k2, hk2, heq2⟩
    refine ⟨k1, k2, hk1, hk2, heq1, heq2, ?_⟩
    have hpw := List.pairwise_iff_getElem.mp (sortEnumCards_pairwise cards)
    have hne : k1 ≠ k2 := by
      intro hkeq
      subst hkeq
      rw [heq1] at heq2
      have : i = j := congrArg Prod.fst heq2
      omega
    by_cases hpos : cards[i].pos ≤ cards[j].pos
    · rw [if_pos hpos]
      rcases Nat.lt_or_ge k1 k2 with h | h
      · exact h
      · have hlt : k2 < k1 := by omega
        have := hpw k2 k1 hk2 hk1 hlt
        rw [heq1, heq2] at this
        have h3 := (ltPair_iff _ _).mp this
        simp only at h3
        omega
    · rw [if_neg hpos]
      have hpos2 : cards[j].pos < cards[i].pos := by omega
      rcases Nat.lt_or_ge k2 k1 with h | h
      · exact h
      · have hlt : k1 < k2 := by omega
        have := hpw k1 k2 hk1 hk2 hlt
        rw [heq1, heq2] at this
        have h3 := (ltPair_iff _ _).mp this
        simp only at h3
        omega
  · have hpaths := paths_listFiles labels cls dir cards now
    set paths := (listFiles labels cls dir cards now).map Prod.fst with hp
    have hlen : paths.length = cards.length := by
      rw [hp, List.length_map, length_listFiles]
    have hcount : 2 ≤ paths.countP (fun s => s == cardFilePath dir cards[i]) := by
      rw [hp, paths_listFiles, List.countP_map]
      have hperm := (stableSort_perm leCard cards).countP_eq
        ((fun s => s == cardFilePath dir cards[i]) ∘ cardFilePath dir)
      rw [show sortCards cards = stableSort leCard cards from rfl, hperm]
      refine two_le_countP _ cards i j hi hj hij ?_ ?_
      · simp
      · simp [Function.comp, ← hpath]
    have hnotnodup : ¬ paths.Nodup := by
      intro hnd
      have hle := List.nodup_iff_count_le_one.mp hnd (cardFilePath dir cards[i])
      rw [List.count_eq_countP] at hle
      omega
    have hsub := List.dedup_sublist paths
    have hlt : paths.dedup.length < paths.length := by
      rcases Nat.lt_or_ge paths.dedup.length paths.length with h | h
      · exact h
      · have heq : paths.dedup.length = paths.length := by
          have := hsub.length_le
          omega
        have hdd := hsub.eq_of_length heq
        rw [← hdd] at hnotnodup
        exact absurd (List.nodup_dedup paths) hnotnodup
    omega

/-- C10 witness: the clash board's two cards (same list, both `idShort` 42,
`pos` 5 then 3) collide on one path; the `pos` 5 card is written second;
the directory gets one file for two cards. -/
theorem claim10_idshort_clash_witness :
    cardFilePath "out" (clashBoard.cards.get ⟨0, by decide⟩)
      = cardFilePath "out" (clashBoard.cards.get ⟨1, by decide⟩) ∧
    (∃ k1 k2, ∃ (hk1 : k1 < (sortEnumCards clashBoard.cards).length)
        (hk2 : k2 < (sortEnumCards clashBoard.cards).length),
      (sortEnumCards clashBoard.cards)[k1]
        = (0, clashBoard.cards.get ⟨0, by decide⟩) ∧
      (sortEnumCards clashBoard.cards)[k2]
        = (1, clashBoard.cards.get ⟨1, by decide⟩) ∧
      (if (clashBoard.cards.get ⟨0, by decide⟩).pos
          ≤ (clashBoard.cards.get ⟨1, by decide⟩).pos then k1 < k2 else k2 < k1)) ∧
    ((listFiles [] [] "out" clashBoard.cards "T").map Prod.fst).dedup.length
      < clashBoard.cards.length :=
  claim10_idshort_clash clashBoard "L1" clashBoard.cards (by decide)
    [] [] "out" "T" 0 1 (by decide) (by decide) (by decide) (by decide)

end Daedalus
